import Mathlib

/-!
Verification of the keyframe-gen core: the pixel sampler `updateSamples` and
the two exporters `samplesAsJsScaleYFrames` / `samplesAsCssTranslateY`,
shallowly embedded from `src/KeyframeGen.tsx` (the component variant with the
bottom-row fallback and the `x < width + 1` loop bound, which the design
document adopts as the contract; the older variant without the fallback is
noted where it differs).

Modelling conventions:
* JavaScript numbers used as loop accumulators (`x`, `step`) are modelled as
  exact nonnegative rationals.  To keep every definition kernel-computable we
  represent them by unnormalized fractions (`Frac`, a numerator/denominator
  pair of naturals) whose operations are proved to agree with `ℚ` whenever the
  denominators are nonzero; `width / 0` yields denominator `0`, which under
  cross-multiplication ordering behaves like the JS `Infinity` it stands for.
  All inputs exercised by the theorems keep the JS float computation exact,
  so no rounding drift is lost.
* RGBA bytes live in a flat `List ℕ`; `data[index]` is `List.get?`, which is
  `none` out of range — mirroring JS `undefined`, for which every comparison
  in `isBlack` is false.
* The `for` loops are structural recursions; the outer loop, which JS runs
  while `x < width + 1`, gets a fuel argument that is provably larger than
  the number of iterations whenever `width ≥ 1` and `sampleCount ≥ 2`
  (the regime in which the JS loop terminates).
-/

set_option autoImplicit false

/-- An exact nonnegative rational, unnormalized so that all operations are
plain structural arithmetic on `ℕ`. -/
structure Frac where
  num : ℕ
  den : ℕ
deriving DecidableEq, Repr

/-- Embed a natural number. -/
def Frac.ofNat (a : ℕ) : Frac :=
  ⟨a, 1⟩

/-- Exact division (cross multiplication; division by zero gives denominator
`0`, standing for the JS `Infinity`). -/
def Frac.div (a b : Frac) : Frac :=
  ⟨a.num * b.den, a.den * b.num⟩

/-- Exact addition. -/
def Frac.add (a b : Frac) : Frac :=
  ⟨a.num * b.den + b.num * a.den, a.den * b.den⟩

/-- Strict comparison by cross multiplication (false whenever a denominator-`0`
value sits on the left, matching `Infinity < _`). -/
def Frac.lt (a b : Frac) : Bool :=
  decide (a.num * b.den < b.num * a.den)

/-- The `Math.floor` of a value, as a natural number (all modelled values are nonnegative). -/
def Frac.floor (a : Frac) : ℕ :=
  a.num / a.den

/-- The rational value of a `Frac`. -/
def Frac.toRat (a : Frac) : ℚ :=
  (a.num : ℚ) / (a.den : ℚ)

/-- A sampled curve point; `y` is stored flipped (`height - rowIndex`). -/
structure Point where
  x : ℕ
  y : ℕ
deriving DecidableEq, Repr

/-- An exported animation frame. -/
structure Frame where
  scale : String
deriving DecidableEq, Repr

/-- Reading `data[i]` of a JS typed array: `undefined` (here `none`) out of range. -/
def byteAt (data : List ℕ) (i : ℕ) : Option ℕ :=
  data.get? i

/-- JS `v < t` where `v` may be `undefined`: comparisons with `undefined` are
false. -/
def jsLtNum (v : Option ℕ) (t : ℕ) : Bool :=
  match v with
  | none => false
  | some v => decide (v < t)

/-- The `isBlack(r, g, b, a)` helper from the source:
`r < threshold && g < threshold && b < threshold && a === 255`. -/
def isBlack (threshold : ℕ) (r g b a : Option ℕ) : Bool :=
  jsLtNum r threshold && jsLtNum g threshold && jsLtNum b threshold
    && (a == some 255)

/-- The `isBlack` test applied to the four bytes of pixel
`(column xF, row y)`: `index = (y * width + xF) * 4`. -/
def isBlackAt (w : ℕ) (data : List ℕ) (threshold xF y : ℕ) : Bool :=
  let index := (y * w + xF) * 4
  isBlack threshold (byteAt data index) (byteAt data (index + 1))
    (byteAt data (index + 2)) (byteAt data (index + 3))

/-- The inner-loop break condition of the sampler:
`isBlack(r, g, b, a) || y === height - 1`. -/
def hitAt (w h : ℕ) (data : List ℕ) (threshold xF y : ℕ) : Bool :=
  isBlackAt w data threshold xF y || (y == h - 1)

/-- The row index at which the inner loop `for (let y = 0; y < height; y++)`
breaks for column `xF` (the first hit, scanning top to bottom). -/
def firstHitRow (w h : ℕ) (data : List ℕ) (threshold xF : ℕ) : Option ℕ :=
  (List.range h).find? (hitAt w h data threshold xF)

/-- The point pushed for column `xF` (if any): `{x: xFloor, y: height - y}` at
the first hit row. -/
def colPoint (w h : ℕ) (data : List ℕ) (threshold xF : ℕ) : Option Point :=
  (firstHitRow w h data threshold xF).map fun y => ⟨xF, h - y⟩

/-- The clamp `Math.min(width - 1, Math.floor(x))` for the nonnegative loop variable. -/
def xFloorClamp (w : ℕ) (x : Frac) : ℕ :=
  min (w - 1) x.floor

/-- The outer loop `for (let x = 0; x < width + 1; x += step)` of
`updateSamples`, with fuel (the JS loop terminates whenever `step > 0`;
`sampleFuel` below over-approximates its iteration count). -/
def sampleLoop (w h : ℕ) (data : List ℕ) (threshold : ℕ) (step : Frac) :
    ℕ → Frac → List Point
  | 0, _ => []
  | fuel + 1, x =>
    if Frac.lt x (Frac.ofNat (w + 1)) then
      (colPoint w h data threshold (xFloorClamp w x)).toList
        ++ sampleLoop w h data threshold step fuel (x.add step)
    else []

/-- Fuel bound: the loop runs `x = k·step` while `k·step < w + 1`, hence at
most `(w+1)(n-1)/w + 1 ≤ (w+2)(n+2)` iterations when `w ≥ 1`, `n ≥ 2`. -/
def sampleFuel (w n : ℕ) : ℕ :=
  (w + 2) * (n + 2)

/-- The sampler `updateSamples(canvas, sampleCount, threshold)`: the canvas supplies
`width`, `height` and the RGBA `data`; `step = width / (sampleCount - 1)`.
(The subtraction is on `ℕ`, so `sampleCount = 0` — JS step `-width`, a
non-terminating loop — is outside the model; `sampleCount = 1` gives the JS
`Infinity` step.) -/
def updateSamples (width height : ℕ) (data : List ℕ)
    (sampleCount threshold : ℕ) : List Point :=
  let step : Frac := (Frac.ofNat width).div (Frac.ofNat (sampleCount - 1))
  sampleLoop width height data threshold step (sampleFuel width sampleCount)
    (Frac.ofNat 0)

/-! ### A closed form for the sampling loop

With `step = w / (n - 1) > 0` the loop variable after `k` additions is
exactly `k · step`, so the loop performs one iteration for every `k` with
`k · w < (w + 1) · (n - 1)`; `numIters` counts them. -/

/-- Number of iterations of the outer sampling loop (`w ≥ 1`, `n ≥ 2`). -/
def numIters (w n : ℕ) : ℕ :=
  ((w + 1) * (n - 1) - 1) / w + 1

/-- The column inspected at iteration `k`:
`min (w - 1) ⌊k · (w / (n-1))⌋`. -/
def xFloorOf (w n k : ℕ) : ℕ :=
  min (w - 1) (k * w / (n - 1))

/-! ### The exporters

`samplesAsJsScaleYFrames` / `samplesAsCssTranslateY` read the component
state: the loaded image (whose only relevant datum is its height, `none`
when no image is loaded) and the current samples.  JS numbers of the form
`Math.round(...) / 100` are kept as their integer numerator and rendered by
`fmtHundredths`, the decimal notation JS template literals produce for such
values. -/

/-- Exact multiplication on `Frac`. -/
def Frac.mul (a b : Frac) : Frac :=
  ⟨a.num * b.num, a.den * b.den⟩

/-- The `Math.round` of a nonnegative exact value: `⌊a + 1/2⌋`
(round half away from zero coincides with round half up here). -/
def jsRound (a : Frac) : ℕ :=
  (2 * a.num + a.den) / (2 * a.den)

/-- The value `Math.round((y / imageHeight) * 100)` from the exporters, computed on
exact values. -/
def round2Num (y hImg : ℕ) : ℕ :=
  jsRound (((Frac.ofNat y).div (Frac.ofNat hImg)).mul (Frac.ofNat 100))

/-- How a JS template literal renders the number `m / 100` (`m ≥ 0`):
an integer when `100 ∣ m`, otherwise one or two decimal places with no
trailing zero. -/
def fmtHundredths (m : ℕ) : String :=
  if m % 100 == 0 then toString (m / 100)
  else if m % 10 == 0 then
    toString (m / 100) ++ "." ++ toString (m / 10 % 10)
  else
    toString (m / 100) ++ "."
      ++ (if m % 100 < 10 then "0" else "") ++ toString (m % 100)

/-- JSON string escaping of one character (the exported scale strings only
contain digits, spaces and dots, for which this is the identity). -/
def escapeChar (c : Char) : String :=
  if c = '"' then "\\\""
  else if c = '\\' then "\\\\"
  else if c = '\n' then "\\n"
  else String.singleton c

def jsonEscape (s : String) : String :=
  String.join (s.data.map escapeChar)

/-- The output of `JSON.stringify(frames, null, 2)` for a list of single-field `Frame`
objects: `[]` for the empty array, otherwise a newline-separated array with
2-space indentation. -/
def jsonStringifyFrames (frames : List Frame) : String :=
  match frames with
  | [] => "[]"
  | _ =>
    "[\n"
      ++ String.intercalate ",\n"
          (frames.map fun f =>
            "  \x7b\n    \"scale\": \"" ++ jsonEscape f.scale ++ "\"\n  \x7d")
      ++ "\n]"

/-- The renderer `samplesAsJsScaleYFrames()`: empty string when no image is loaded,
otherwise the pretty-printed JSON of
`{scale: `1 ${Math.round((sample.y / image.height) * 100) / 100}`}`
per sample. -/
def samplesAsJsScaleYFrames (image : Option ℕ) (samples : List Point) :
    String :=
  match image with
  | none => ""
  | some hImg =>
    jsonStringifyFrames (samples.map fun sample =>
      ⟨"1 " ++ fmtHundredths (round2Num sample.y hImg)⟩)

/-- The helper `samplesAsFrames()` of the older component variant: the `Frame` list,
empty when no image is loaded. -/
def samplesAsFrames (image : Option ℕ) (samples : List Point) : List Frame :=
  match image with
  | none => []
  | some hImg =>
    samples.map fun sample =>
      ⟨"1 " ++ fmtHundredths (round2Num sample.y hImg)⟩

/-- The renderer `framesAsJson()` of the older component variant:
`JSON.stringify(samplesAsFrames(), null, 2)`. -/
def framesAsJson (image : Option ℕ) (samples : List Point) : String :=
  jsonStringifyFrames (samplesAsFrames image samples)

/-- The `parts` array of `samplesAsCssTranslateY`: one
`` `${percent}% { translate: 0 ${…} }` `` line per sample, with the running
`percent` increased by `step` after each line. -/
def cssParts (hImg step : ℕ) : List Point → ℕ → List String
  | [], _ => []
  | sample :: rest, percent =>
    (toString percent ++ "% \x7b translate: 0 "
        ++ fmtHundredths (round2Num sample.y hImg) ++ " \x7d")
      :: cssParts hImg step rest (percent + step)

/-- The renderer `samplesAsCssTranslateY()`: empty string when no image is loaded,
otherwise the lines joined by newlines, with
`step = Math.floor(100 / (samples.length - 1))` (the `ℕ` division matches
`Math.floor` for `samples.length ≥ 2`; with fewer samples JS divides by `0`
or `-1`, outside this model — the loop body never runs for `0` samples). -/
def samplesAsCssTranslateY (image : Option ℕ) (samples : List Point) :
    String :=
  match image with
  | none => ""
  | some hImg =>
    let step := 100 / (samples.length - 1)
    String.intercalate "\n" (cssParts hImg step samples 0)

/-! ### Memory-operation instrumentation of the sampler

The same two loops, additionally recording, per outer iteration, the column
inspected and every access to the RGBA array (`data[index]` …
`data[index + 3]` for each row visited).  The source contains no statement
writing to `data`, so the recorded trace can only contain reads; `MemOp`
still has a write constructor so that "never mutates the buffer" is a
statement, not a tautology of the trace type. -/

/-- A memory operation on the RGBA array: reading a byte, or writing one. -/
inductive MemOp where
  | read : ℕ → MemOp
  | write : ℕ → ℕ → MemOp
deriving DecidableEq, Repr

/-- The effect of one memory operation on the buffer. -/
def applyMemOp (data : List ℕ) : MemOp → List ℕ
  | .read _ => data
  | .write i v => data.set i v

/-- The effect of a whole trace on the buffer. -/
def applyMemTrace (data : List ℕ) (ops : List MemOp) : List ℕ :=
  ops.foldl applyMemOp data

/-- The inner row loop over the remaining rows, recording its four byte
reads per visited row and stopping at the first hit. -/
def scanRowsTr (w h : ℕ) (data : List ℕ) (t xF : ℕ) :
    List ℕ → List MemOp × Option ℕ
  | [] => ([], none)
  | y :: ys =>
    let index := (y * w + xF) * 4
    let ops := [MemOp.read index, MemOp.read (index + 1),
      MemOp.read (index + 2), MemOp.read (index + 3)]
    if hitAt w h data t xF y then (ops, some y)
    else
      let rest := scanRowsTr w h data t xF ys
      (ops ++ rest.1, rest.2)

/-- The outer sampling loop, instrumented: one entry per iteration, with the
column inspected, the reads performed, and the point pushed (if any). -/
def sampleLoopTr (w h : ℕ) (data : List ℕ) (t : ℕ) (step : Frac) :
    ℕ → Frac → List (ℕ × List MemOp × Option Point)
  | 0, _ => []
  | fuel + 1, x =>
    if Frac.lt x (Frac.ofNat (w + 1)) then
      let xF := xFloorClamp w x
      let scan := scanRowsTr w h data t xF (List.range h)
      (xF, scan.1, scan.2.map fun y => (⟨xF, h - y⟩ : Point))
        :: sampleLoopTr w h data t step fuel (x.add step)
    else []

/-- The instrumented run of `updateSamples`. -/
def updateSamplesTr (width height : ℕ) (data : List ℕ)
    (sampleCount threshold : ℕ) : List (ℕ × List MemOp × Option Point) :=
  let step : Frac := (Frac.ofNat width).div (Frac.ofNat (sampleCount - 1))
  sampleLoopTr width height data threshold step
    (sampleFuel width sampleCount) (Frac.ofNat 0)

/-- The columns a sampler call inspects, in order. -/
def scannedColumns (width height : ℕ) (data : List ℕ)
    (sampleCount threshold : ℕ) : List ℕ :=
  (updateSamplesTr width height data sampleCount threshold).map
    fun it => it.1

/-- Every access a sampler call makes to the RGBA array, in order. -/
def memTrace (width height : ℕ) (data : List ℕ)
    (sampleCount threshold : ℕ) : List MemOp :=
  ((updateSamplesTr width height data sampleCount threshold).map
    fun it => it.2.1).flatten

/-- The 4×4 RGBA test buffer: all white and opaque except the pixel at
column 2, row 1, which is black and opaque (`index = (1*4 + 2)*4 = 24`). -/
def buffer44 : List ℕ :=
  [255, 255, 255, 255, 255, 255, 255, 255,
    255, 255, 255, 255, 255, 255, 255, 255,
    255, 255, 255, 255, 255, 255, 255, 255,
    0, 0, 0, 255, 255, 255, 255, 255,
    255, 255, 255, 255, 255, 255, 255, 255,
    255, 255, 255, 255, 255, 255, 255, 255,
    255, 255, 255, 255, 255, 255, 255, 255,
    255, 255, 255, 255, 255, 255, 255, 255]

/-- The column of the pixel a memory operation touches, in a buffer of
width `w` (byte `i` belongs to pixel `i / 4`, which sits in column
`i / 4 % w`). -/
def opColumn (w : ℕ) : MemOp → ℕ
  | .read i => i / 4 % w
  | .write i _ => i / 4 % w

example : updateSamples 1 1 [255, 255, 255, 255] 3 127 =
    [⟨0, 1⟩, ⟨0, 1⟩, ⟨0, 1⟩, ⟨0, 1⟩] := by decide

example : updateSamples 2 1 [255, 255, 255, 255, 255, 255, 255, 255] 2 127 =
    [⟨0, 1⟩, ⟨1, 1⟩] := by decide

example : updateSamples 4 0 [] 2 127 = [] := by decide

example : updateSamples 1 2 [0, 0, 0, 255, 255, 255, 255, 255] 2 127 =
    [⟨0, 2⟩, ⟨0, 2⟩] := by decide

/-! ### Correspondence of `Frac` with `ℚ` -/

theorem Frac.toRat_ofNat (a : ℕ) : (Frac.ofNat a).toRat = a := by
  simp [Frac.ofNat, Frac.toRat]

theorem Frac.den_ofNat (a : ℕ) : (Frac.ofNat a).den = 1 := rfl

theorem Frac.toRat_add (a b : Frac) (ha : a.den ≠ 0) (hb : b.den ≠ 0) :
    (a.add b).toRat = a.toRat + b.toRat := by
  have ha' : (a.den : ℚ) ≠ 0 := Nat.cast_ne_zero.mpr ha
  have hb' : (b.den : ℚ) ≠ 0 := Nat.cast_ne_zero.mpr hb
  simp only [Frac.add, Frac.toRat]
  field_simp

theorem Frac.den_add (a b : Frac) : (a.add b).den = a.den * b.den := rfl

theorem Frac.lt_iff (a b : Frac) (ha : a.den ≠ 0) (hb : b.den ≠ 0) :
    Frac.lt a b = true ↔ a.toRat < b.toRat := by
  have ha' : (0 : ℚ) < a.den := by positivity
  have hb' : (0 : ℚ) < b.den := by positivity
  simp only [Frac.lt, Frac.toRat, decide_eq_true_eq]
  rw [div_lt_div_iff₀ ha' hb']
  exact_mod_cast Iff.rfl

theorem Frac.floor_eq (a : Frac) : a.floor = ⌊a.toRat⌋₊ := by
  simp [Frac.floor, Frac.toRat, Nat.floor_div_nat]

theorem lt_numIters_iff {w n : ℕ} (hw : 1 ≤ w) (hn : 2 ≤ n) (k : ℕ) :
    k < numIters w n ↔ k * w < (w + 1) * (n - 1) := by
  have hM : 1 ≤ (w + 1) * (n - 1) := Nat.mul_pos (by omega) (by omega)
  unfold numIters
  rw [Nat.lt_add_one_iff, Nat.le_div_iff_mul_le hw]
  generalize (w + 1) * (n - 1) = M at hM
  generalize k * w = a
  omega

theorem numIters_le_sampleFuel {w n : ℕ} : numIters w n ≤ sampleFuel w n := by
  have h1 : ((w + 1) * (n - 1) - 1) / w ≤ (w + 1) * (n - 1) - 1 :=
    Nat.div_le_self _ _
  have hstep : (w + 1) * (n - 1) + (w + 1) ≤ (w + 2) * (n + 2) := by
    have h := Nat.mul_le_mul (show w + 1 ≤ w + 2 by omega)
      (show (n - 1) + 1 ≤ n + 2 by omega)
    calc (w + 1) * (n - 1) + (w + 1) = (w + 1) * ((n - 1) + 1) := by ring
      _ ≤ (w + 2) * (n + 2) := h
  unfold numIters sampleFuel
  generalize hA : (w + 1) * (n - 1) = A at h1 hstep ⊢
  generalize hq : (A - 1) / w = q at h1 ⊢
  generalize hF : (w + 2) * (n + 2) = F at hstep ⊢
  omega

theorem filterMap_eq_map_of_some {α β : Type} (f : α → Option β) (g : α → β) :
    ∀ l : List α, (∀ a ∈ l, f a = some (g a)) → l.filterMap f = l.map g := by
  intro l
  induction l with
  | nil => intro _; rfl
  | cons a l ih =>
    intro hl
    rw [List.filterMap_cons, hl a (List.mem_cons_self a l), List.map_cons,
      ih fun b hb => hl b (List.mem_cons_of_mem a hb)]

theorem sampleLoop_eq {w h n t : ℕ} (data : List ℕ) (hw : 1 ≤ w)
    (hn : 2 ≤ n) (fuel : ℕ) :
    ∀ (k : ℕ) (x : Frac), x.den ≠ 0 →
      x.toRat = (k : ℚ) * ((w : ℚ) / ((n : ℚ) - 1)) →
      numIters w n ≤ k + fuel →
      sampleLoop w h data t ((Frac.ofNat w).div (Frac.ofNat (n - 1)))
          fuel x
        = (List.range' k (numIters w n - k)).filterMap
            fun j => colPoint w h data t (xFloorOf w n j) := by
  have hn1 : (0 : ℚ) < (n : ℚ) - 1 := by
    have : (2 : ℚ) ≤ (n : ℚ) := by exact_mod_cast hn
    linarith
  have hw0 : (0 : ℚ) < (w : ℚ) := by exact_mod_cast hw
  have hstepden : ((Frac.ofNat w).div (Frac.ofNat (n - 1))).den ≠ 0 := by
    simp only [Frac.div, Frac.ofNat, one_mul]
    omega
  have hcastsub : ((n - 1 : ℕ) : ℚ) = (n : ℚ) - 1 := by
    rw [Nat.cast_sub (by omega)]
    norm_num
  have hstepval : ((Frac.ofNat w).div (Frac.ofNat (n - 1))).toRat
      = (w : ℚ) / ((n : ℚ) - 1) := by
    simp only [Frac.div, Frac.ofNat, Frac.toRat, mul_one, one_mul]
    rw [hcastsub]
  induction fuel with
  | zero =>
    intro k x _ _ hfuel
    have hk : numIters w n - k = 0 := by omega
    simp [sampleLoop, hk]
  | succ fuel ih =>
    intro k x hxden hx hfuel
    rw [sampleLoop]
    by_cases hk : k < numIters w n
    · have hcond : Frac.lt x (Frac.ofNat (w + 1)) = true := by
        rw [Frac.lt_iff x _ hxden (by rw [Frac.den_ofNat]; omega),
          Frac.toRat_ofNat, hx, mul_div_assoc', div_lt_iff₀ hn1, ← hcastsub]
        exact_mod_cast (lt_numIters_iff hw hn k).mp hk
      rw [if_pos hcond]
      have hxfloor : xFloorClamp w x = xFloorOf w n k := by
        unfold xFloorClamp xFloorOf
        congr 1
        rw [Frac.floor_eq, hx, mul_div_assoc', ← hcastsub]
        have hkw : (k : ℚ) * (w : ℚ) = ((k * w : ℕ) : ℚ) := by push_cast; ring
        rw [hkw, Nat.floor_div_nat, Nat.floor_natCast]
      have hrange : numIters w n - k = (numIters w n - (k + 1)) + 1 := by
        omega
      have hih := ih (k + 1) (x.add ((Frac.ofNat w).div (Frac.ofNat (n - 1))))
        (by rw [Frac.den_add]; exact Nat.mul_ne_zero hxden hstepden)
        (by rw [Frac.toRat_add x _ hxden hstepden, hx, hstepval]; push_cast;
            ring)
        (by omega)
      rw [hih, hxfloor, hrange, List.range'_succ, List.filterMap_cons]
      cases hcol : colPoint w h data t (xFloorOf w n k) <;>
        simp [hcol, Option.toList]
    · have hcond : ¬ Frac.lt x (Frac.ofNat (w + 1)) = true := by
        rw [Frac.lt_iff x _ hxden (by rw [Frac.den_ofNat]; omega),
          Frac.toRat_ofNat, hx, mul_div_assoc', div_lt_iff₀ hn1, ← hcastsub]
        intro hcontra
        apply hk
        rw [lt_numIters_iff hw hn k]
        exact_mod_cast hcontra
      rw [if_neg hcond]
      have hk0 : numIters w n - k = 0 := by omega
      simp [hk0]

/-- For `w ≥ 1`, `n ≥ 2` the sampler equals its closed form: one column scan
per iteration index `k < numIters w n`, at column `xFloorOf w n k`. -/
theorem updateSamples_eq {w h : ℕ} (data : List ℕ) {n : ℕ} (t : ℕ)
    (hw : 1 ≤ w) (hn : 2 ≤ n) :
    updateSamples w h data n t
      = (List.range (numIters w n)).filterMap
          fun j => colPoint w h data t (xFloorOf w n j) := by
  have hdef : updateSamples w h data n t
      = sampleLoop w h data t
          ((Frac.ofNat w).div (Frac.ofNat (n - 1))) (sampleFuel w n)
          (Frac.ofNat 0) := rfl
  rw [hdef, List.range_eq_range']
  have h0 := sampleLoop_eq (w := w) (h := h) (n := n) (t := t)
    data hw hn (sampleFuel w n) 0 (Frac.ofNat 0)
    (by rw [Frac.den_ofNat]; omega)
    (by rw [Frac.toRat_ofNat]; push_cast; ring)
    (by have := numIters_le_sampleFuel (w := w) (n := n); omega)
  simpa using h0

/-! ### First-hit structure of a column scan -/

theorem find?_range_spec (p : ℕ → Bool) (h r : ℕ)
    (hfind : (List.range h).find? p = some r) :
    r < h ∧ p r = true ∧ ∀ s < r, p s = false := by
  induction h with
  | zero => simp [List.range_zero] at hfind
  | succ h ih =>
    rw [List.range_succ, List.find?_append] at hfind
    cases hf : (List.range h).find? p with
    | some r0 =>
      rw [hf, Option.or_some] at hfind
      obtain rfl : r0 = r := Option.some.inj hfind
      obtain ⟨h1, h2, h3⟩ := ih hf
      exact ⟨Nat.lt_succ_of_lt h1, h2, h3⟩
    | none =>
      rw [hf, Option.none_or, List.find?_singleton] at hfind
      have hnone := List.find?_eq_none.mp hf
      cases hph : p h with
      | true =>
        rw [if_pos hph] at hfind
        obtain rfl : h = r := Option.some.inj hfind
        refine ⟨Nat.lt_succ_self _, hph, fun s hs => ?_⟩
        have := hnone s (List.mem_range.mpr hs)
        exact Bool.not_eq_true _ |>.mp this
      | false =>
        rw [if_neg (by rw [hph]; exact Bool.false_ne_true)] at hfind
        exact absurd hfind (by simp)

/-- Any column scan over `h ≥ 1` rows hits (at the latest, the bottom row),
and the point it produces records the *first* hit. -/
theorem colPoint_spec (w h : ℕ) (data : List ℕ) (t xF : ℕ) (hh : 1 ≤ h) :
    ∃ r, firstHitRow w h data t xF = some r ∧ r < h ∧
      hitAt w h data t xF r = true ∧
      (∀ s < r, hitAt w h data t xF s = false) ∧
      colPoint w h data t xF = some ⟨xF, h - r⟩ := by
  cases hf : firstHitRow w h data t xF with
  | none =>
    exfalso
    have hnone := List.find?_eq_none.mp hf
    have hmem : h - 1 ∈ List.range h := List.mem_range.mpr (by omega)
    apply hnone (h - 1) hmem
    unfold hitAt
    simp
  | some r =>
    obtain ⟨h1, h2, h3⟩ := find?_range_spec _ h r hf
    refine ⟨r, rfl, h1, h2, h3, ?_⟩
    unfold colPoint
    rw [hf, Option.map_some']

/-- Every point the sampling loop pushes comes from a first-hit row of the
column recorded in its `x` field. -/
theorem mem_sampleLoop {w h : ℕ} {data : List ℕ} {t : ℕ} {step : Frac}
    {fuel : ℕ} {x : Frac} {p : Point}
    (hp : p ∈ sampleLoop w h data t step fuel x) :
    ∃ r, r < h ∧ firstHitRow w h data t p.x = some r ∧ p.y = h - r := by
  induction fuel generalizing x with
  | zero => simp [sampleLoop] at hp
  | succ fuel ih =>
    rw [sampleLoop] at hp
    cases hc : Frac.lt x (Frac.ofNat (w + 1)) with
    | false => simp [hc] at hp
    | true =>
      rw [hc, if_pos rfl] at hp
      rcases List.mem_append.mp hp with h1 | h2
      · cases hcol : colPoint w h data t (xFloorClamp w x) with
        | none => rw [hcol] at h1; simp [Option.toList] at h1
        | some q =>
          rw [hcol] at h1
          simp only [Option.toList, List.mem_singleton] at h1
          subst h1
          unfold colPoint at hcol
          cases hfr : firstHitRow w h data t (xFloorClamp w x) with
          | none => rw [hfr] at hcol; exact absurd hcol (by simp)
          | some r =>
            rw [hfr, Option.map_some'] at hcol
            obtain rfl : (⟨xFloorClamp w x, h - r⟩ : Point) = p :=
              Option.some.inj hcol
            refine ⟨r, ?_, hfr, rfl⟩
            exact List.mem_range.mp (List.mem_of_find?_eq_some hfr)
      · exact ih h2

/-- With `2 ≤ n ≤ w + 1` the loop runs exactly `n` iterations. -/
theorem numIters_eq {w n : ℕ} (hw : 1 ≤ w) (hn : 2 ≤ n) (hnw : n ≤ w + 1) :
    numIters w n = n := by
  have h1 : (w + 1) * (n - 1) - 1 = (n - 2) + w * (n - 1) := by
    have hexp : (w + 1) * (n - 1) = w * (n - 1) + (n - 1) := by ring
    rw [hexp]
    generalize w * (n - 1) = a
    omega
  unfold numIters
  rw [h1, Nat.add_mul_div_left _ _ (by omega : 0 < w),
    Nat.div_eq_of_lt (by omega : n - 2 < w)]
  omega

theorem xFloorOf_mono {w n : ℕ} {a b : ℕ} (hab : a ≤ b) :
    xFloorOf w n a ≤ xFloorOf w n b :=
  min_le_min (Nat.le_refl _)
    (Nat.div_le_div_right (Nat.mul_le_mul_right _ hab))

theorem xFloorOf_le {w n k : ℕ} : xFloorOf w n k ≤ w - 1 := by
  unfold xFloorOf
  exact min_le_left _ _

/-- With `2 ≤ n ≤ w + 1` and `h ≥ 1`, every iteration emits exactly one
point, so the sampler is a plain `map` over the iteration indices. -/
theorem updateSamples_eq_map (w h : ℕ) (data : List ℕ) (n t : ℕ)
    (hw : 1 ≤ w) (hh : 1 ≤ h) (hn : 2 ≤ n) (hnw : n ≤ w + 1) :
    updateSamples w h data n t
      = (List.range n).map fun k =>
          (⟨xFloorOf w n k,
            h - (firstHitRow w h data t (xFloorOf w n k)).getD 0⟩ : Point) := by
  rw [updateSamples_eq data t hw hn, numIters_eq hw hn hnw]
  apply filterMap_eq_map_of_some
  intro k _
  obtain ⟨r, hf, _, _, _, hcp⟩ := colPoint_spec w h data t (xFloorOf w n k) hh
  rw [hcp, hf]
  simp [Option.getD]

theorem sampleLoop_zero_height (w : ℕ) (data : List ℕ) (t : ℕ) (step : Frac) :
    ∀ (fuel : ℕ) (x : Frac), sampleLoop w 0 data t step fuel x = [] := by
  intro fuel
  induction fuel with
  | zero => intro x; rfl
  | succ fuel ih =>
    intro x
    rw [sampleLoop]
    by_cases hcond : Frac.lt x (Frac.ofNat (w + 1)) = true
    · rw [if_pos hcond]
      have hcol : colPoint w 0 data t (xFloorClamp w x) = none := by
        simp [colPoint, firstHitRow]
      rw [hcol]
      simp [ih]
    · rw [if_neg hcond]

/-- Strict growth of the inspected column while it is unclamped
(`2 ≤ n ≤ w`): consecutive sample positions are more than one pixel apart. -/
theorem xFloorOf_strictMono {w n : ℕ} (hw : 1 ≤ w) (hn : 2 ≤ n) (hnw : n ≤ w)
    {a b : ℕ} (hab : a < b) (hb : b < n) :
    xFloorOf w n a < xFloorOf w n b := by
  have hn1 : 0 < n - 1 := by omega
  have hlt : (n - 2) * w / (n - 1) < w - 1 := by
    rw [Nat.div_lt_iff_lt_mul hn1]
    have e1 : (w - 1) * (n - 1) = w * (n - 1) - (n - 1) := Nat.sub_one_mul w _
    have e2 : (n - 2) * w = (n - 1) * w - w := by
      have h3 : n - 2 = (n - 1) - 1 := by omega
      rw [h3, Nat.sub_one_mul]
    rw [e1, e2, Nat.mul_comm (n - 1) w]
    have hge : w ≤ w * (n - 1) := Nat.le_mul_of_pos_right w hn1
    have hwn : n - 1 < w := by omega
    generalize w * (n - 1) = A at hge ⊢
    omega
  have key : ∀ c, c ≤ n - 2 → c * w / (n - 1) < w - 1 := by
    intro c hc
    exact Nat.lt_of_le_of_lt
      (Nat.div_le_div_right (Nat.mul_le_mul_right _ hc)) hlt
  rcases Nat.lt_or_ge b (n - 1) with hb' | hb'
  · have ha2 : a ≤ n - 2 := by omega
    have hb2 : b ≤ n - 2 := by omega
    unfold xFloorOf
    rw [min_eq_right (Nat.le_of_lt (key a ha2)),
      min_eq_right (Nat.le_of_lt (key b hb2))]
    have h5 : (a + 1) * w ≤ b * w := Nat.mul_le_mul_right _ (by omega)
    have h4 : (a + 1) * w = a * w + w := by ring
    rw [h4] at h5
    have h6 : n - 1 ≤ w := by omega
    have hstep : a * w + (n - 1) ≤ b * w := by
      generalize a * w = A at h5 ⊢
      generalize b * w = B at h5 ⊢
      omega
    calc a * w / (n - 1) < a * w / (n - 1) + 1 := Nat.lt_succ_self _
      _ = (a * w + (n - 1)) / (n - 1) := (Nat.add_div_right _ hn1).symm
      _ ≤ b * w / (n - 1) := Nat.div_le_div_right hstep
  · have hbe : b = n - 1 := by omega
    have ha2 : a ≤ n - 2 := by omega
    unfold xFloorOf
    rw [hbe, Nat.mul_div_cancel_left w hn1,
      min_eq_left (by omega : w - 1 ≤ w)]
    exact Nat.lt_of_le_of_lt (min_le_right _ _) (key a ha2)

/-! ### Claims about the sampler -/

/-- C1 (counterexample): with `W = H = 1` (an all-white opaque pixel),
`sampleCount = 3` and threshold `127`, the loop positions are
`0, 1/2, 1, 3/2` — all `< width + 1 = 2` — so the sampler returns 4 points,
not the requested 3. -/
theorem updateSamples_more_points_than_requested :
    (updateSamples 1 1 [255, 255, 255, 255] 3 127).length = 4 ∧
    (updateSamples 1 1 [255, 255, 255, 255] 3 127).length ≠ 3 := by
  decide

/-- C1 (amended): for `W ≥ 1`, `H ≥ 1` and `2 ≤ sampleCount ≤ W + 1`, the
sampler returns exactly `sampleCount` points, with monotonically
non-decreasing `x` in `[0, W-1]` and `y` in `[0, H]`.  (For
`sampleCount > W + 1` the loop bound `x < width + 1` admits extra
iterations, and more than `sampleCount` points come back.) -/
theorem updateSamples_count_and_bounds (w h : ℕ) (data : List ℕ) (n t : ℕ)
    (hw : 1 ≤ w) (hh : 1 ≤ h) (hn : 2 ≤ n) (hnw : n ≤ w + 1) :
    (updateSamples w h data n t).length = n ∧
    ((updateSamples w h data n t).map Point.x).Pairwise (· ≤ ·) ∧
    ∀ p ∈ updateSamples w h data n t, p.x ≤ w - 1 ∧ p.y ≤ h := by
  have hmap := updateSamples_eq_map w h data n t hw hh hn hnw
  refine ⟨?_, ?_, ?_⟩
  · rw [hmap, List.length_map, List.length_range]
  · rw [hmap, List.map_map, List.pairwise_map]
    exact (List.pairwise_lt_range n).imp fun hab =>
      xFloorOf_mono (Nat.le_of_lt hab)
  · intro p hp
    rw [hmap] at hp
    obtain ⟨k, _, rfl⟩ := List.mem_map.mp hp
    exact ⟨xFloorOf_le, Nat.sub_le _ _⟩

/-- C1 (witness): the amended statement at `W = 2`, `H = 1`, an all-white
buffer, `sampleCount = 2`, threshold `127`. -/
theorem updateSamples_count_and_bounds_witness :
    ((1 : ℕ) ≤ 2 ∧ (1 : ℕ) ≤ 1 ∧ (2 : ℕ) ≤ 2 ∧ (2 : ℕ) ≤ 2 + 1) ∧
    ((updateSamples 2 1 [255, 255, 255, 255, 255, 255, 255, 255] 2
        127).length = 2 ∧
      ((updateSamples 2 1 [255, 255, 255, 255, 255, 255, 255, 255] 2
          127).map Point.x).Pairwise (· ≤ ·) ∧
      ∀ p ∈ updateSamples 2 1 [255, 255, 255, 255, 255, 255, 255, 255] 2 127,
        p.x ≤ 2 - 1 ∧ p.y ≤ 1) :=
  ⟨by decide,
    updateSamples_count_and_bounds 2 1
      [255, 255, 255, 255, 255, 255, 255, 255] 2 127
      (by decide) (by decide) (by decide) (by decide)⟩

/-- C2: every emitted point records the *first* hit row of its column
(`y = H - r` with `r` the least row satisfying
`isBlack ∨ rowIndex = H - 1`); a column with no near-black pixel yields
`y = 1`, a column whose row 0 is near-black yields `y = H`. -/
theorem updateSamples_first_hit (w h : ℕ) (data : List ℕ) (n t : ℕ)
    (hh : 1 ≤ h) :
    ∀ p ∈ updateSamples w h data n t,
      ∃ r, firstHitRow w h data t p.x = some r ∧
        hitAt w h data t p.x r = true ∧
        (∀ s < r, hitAt w h data t p.x s = false) ∧
        p.y = h - r ∧
        ((∀ y < h, isBlackAt w data t p.x y = false) → p.y = 1) ∧
        (isBlackAt w data t p.x 0 = true → p.y = h) := by
  intro p hp
  have hp' : p ∈ sampleLoop w h data t
      ((Frac.ofNat w).div (Frac.ofNat (n - 1))) (sampleFuel w n)
      (Frac.ofNat 0) := hp
  obtain ⟨r, hrh, hf, hy⟩ := mem_sampleLoop hp'
  obtain ⟨_, hhit, hmin⟩ := find?_range_spec _ h r hf
  refine ⟨r, hf, hhit, hmin, hy, ?_, ?_⟩
  · intro hnb
    have hr : r = h - 1 := by
      unfold hitAt at hhit
      rw [hnb r hrh] at hhit
      simpa using hhit
    rw [hy, hr]
    omega
  · intro hb0
    have hr : r = 0 := by
      by_contra h0
      have hcontra := hmin 0 (Nat.pos_of_ne_zero h0)
      unfold hitAt at hcontra
      rw [hb0] at hcontra
      simp at hcontra
    rw [hy, hr, Nat.sub_zero]

/-- C2 (witness): a 1×2 buffer whose top row is black and opaque; the emitted
point for column 0 has `y = H = 2`. -/
theorem updateSamples_first_hit_witness :
    (1 : ℕ) ≤ 2 ∧
    (⟨0, 2⟩ : Point) ∈
      updateSamples 1 2 [0, 0, 0, 255, 255, 255, 255, 255] 2 127 ∧
    ∃ r, firstHitRow 1 2 [0, 0, 0, 255, 255, 255, 255, 255] 127 0 = some r ∧
      hitAt 1 2 [0, 0, 0, 255, 255, 255, 255, 255] 127 0 r = true ∧
      (∀ s < r, hitAt 1 2 [0, 0, 0, 255, 255, 255, 255, 255] 127 0 s
        = false) ∧
      (2 : ℕ) = 2 - r ∧
      ((∀ y < 2, isBlackAt 1 [0, 0, 0, 255, 255, 255, 255, 255] 127 0 y
          = false) → (2 : ℕ) = 1) ∧
      (isBlackAt 1 [0, 0, 0, 255, 255, 255, 255, 255] 127 0 0 = true →
        (2 : ℕ) = 2) :=
  ⟨by decide, by decide,
    updateSamples_first_hit 1 2 [0, 0, 0, 255, 255, 255, 255, 255] 2 127
      (by decide) ⟨0, 2⟩ (by decide)⟩

/-- C6 (counterexample): at `W = 1`, `sampleCount = 2`, the two loop
positions `0` and `1` both clamp to column `0`, so two points share the same
`x` — the emitted `x` values are *not* pairwise distinct. -/
theorem updateSamples_duplicate_column :
    ¬ ((updateSamples 1 1 [0, 0, 0, 255] 2 127).map Point.x).Pairwise
        (· ≠ ·) ∧
    (updateSamples 1 1 [0, 0, 0, 255] 2 127).map Point.x = [0, 0] := by
  constructor
  · decide
  · decide

/-- C6 (amended): for `2 ≤ sampleCount ≤ W` (and `H ≥ 1`) the inspected
columns are strictly increasing, so the emitted `x` values are pairwise
distinct — at most one point per column.  (For `sampleCount > W` the clamp
`min (W-1) ⌊x⌋` makes sampled columns collide.) -/
theorem updateSamples_columns_distinct (w h : ℕ) (data : List ℕ) (n t : ℕ)
    (hw : 1 ≤ w) (hh : 1 ≤ h) (hn : 2 ≤ n) (hnw : n ≤ w) :
    ((updateSamples w h data n t).map Point.x).Pairwise (· ≠ ·) := by
  have hmap := updateSamples_eq_map w h data n t hw hh hn (by omega)
  rw [hmap, List.map_map, List.pairwise_map]
  refine (List.pairwise_lt_range n).imp_of_mem ?_
  intro a b _ hb hab
  exact Nat.ne_of_lt
    (xFloorOf_strictMono hw hn hnw hab (List.mem_range.mp hb))

/-- C6 (witness): at `W = 2`, `sampleCount = 2` the sampled columns are
`0` and `1`, pairwise distinct. -/
theorem updateSamples_columns_distinct_witness :
    ((1 : ℕ) ≤ 2 ∧ (1 : ℕ) ≤ 1 ∧ (2 : ℕ) ≤ 2 ∧ (2 : ℕ) ≤ 2) ∧
    ((updateSamples 2 1 [255, 255, 255, 255, 255, 255, 255, 255] 2
        127).map Point.x).Pairwise (· ≠ ·) :=
  ⟨by decide,
    updateSamples_columns_distinct 2 1
      [255, 255, 255, 255, 255, 255, 255, 255] 2 127
      (by decide) (by decide) (by decide) (by decide)⟩

/-- C7 (counterexample): the sampler has no validation path at all.  On a
zero-height buffer (`4×0`, `sampleCount = 2`) it silently returns the empty
sample set, and with the invalid `sampleCount = 1` (JS step `Infinity`) it
silently returns a single bottom-row point — in neither case an explicit
error. -/
theorem updateSamples_invalid_params_silent :
    updateSamples 4 0 [] 2 127 = [] ∧
    updateSamples 4 1
        [255, 255, 255, 255, 255, 255, 255, 255,
          255, 255, 255, 255, 255, 255, 255, 255] 1 127 = [⟨0, 1⟩] := by
  constructor
  · decide
  · decide

/-- C7 (amended): instead of failing fast, the sampler treats a zero-height
buffer as an ordinary input and silently produces the empty sample set
(no row can ever hit). -/
theorem updateSamples_zero_height_empty (w : ℕ) (data : List ℕ) (n t : ℕ)
    (hw : 1 ≤ w) (hn : 2 ≤ n) :
    updateSamples w 0 data n t = [] :=
  sampleLoop_zero_height w data t _ _ _

/-- C7 (witness): the amended statement at a `4×0` buffer. -/
theorem updateSamples_zero_height_empty_witness :
    ((1 : ℕ) ≤ 4 ∧ (2 : ℕ) ≤ 2) ∧ updateSamples 4 0 [] 2 127 = [] :=
  ⟨by decide, updateSamples_zero_height_empty 4 [] 2 127 (by decide)
    (by decide)⟩

/-- C10: every emitted point has `y ≥ 1` (the scan emits `y = H - r` with
`r ≤ H - 1`), hence the exported ratio `y / imageHeight` is strictly
positive. -/
theorem updateSamples_y_positive (w h : ℕ) (data : List ℕ) (n t : ℕ) :
    ∀ p ∈ updateSamples w h data n t,
      1 ≤ p.y ∧ p.y ≤ h ∧ 0 < (p.y : ℚ) / (h : ℚ) := by
  intro p hp
  have hp' : p ∈ sampleLoop w h data t
      ((Frac.ofNat w).div (Frac.ofNat (n - 1))) (sampleFuel w n)
      (Frac.ofNat 0) := hp
  obtain ⟨r, hrh, _, hy⟩ := mem_sampleLoop hp'
  have h1 : 1 ≤ p.y := by omega
  have h2 : p.y ≤ h := by omega
  refine ⟨h1, h2, div_pos ?_ ?_⟩
  · exact_mod_cast Nat.lt_of_lt_of_le Nat.zero_lt_one h1
  · exact_mod_cast Nat.lt_of_lt_of_le (Nat.zero_lt_succ 0) (by omega : 1 ≤ h)

/-- C10 (witness): the all-white `2×1` buffer; the bottom-row fallback point
has `y = 1` and ratio `1`. -/
theorem updateSamples_y_positive_witness :
    ((⟨0, 1⟩ : Point) ∈
      updateSamples 2 1 [255, 255, 255, 255, 255, 255, 255, 255] 2 127) ∧
    ((1 : ℕ) ≤ (Point.mk 0 1).y ∧ (Point.mk 0 1).y ≤ 1 ∧
      0 < ((Point.mk 0 1).y : ℚ) / ((1 : ℕ) : ℚ)) :=
  ⟨by decide,
    updateSamples_y_positive 2 1 [255, 255, 255, 255, 255, 255, 255, 255] 2
      127 ⟨0, 1⟩ (by decide)⟩

example : fmtHundredths 10 = "0.1" := by decide

example : fmtHundredths 30 = "0.3" := by decide

example : fmtHundredths 25 = "0.25" := by decide

example : fmtHundredths 5 = "0.05" := by decide

example : fmtHundredths 100 = "1" := by decide

example : fmtHundredths 0 = "0" := by decide

example : fmtHundredths 123 = "1.23" := by decide

example : round2Num 30 100 = 30 := by decide

example : round2Num 1 3 = 33 := by decide

example : samplesAsCssTranslateY (some 100) [⟨0, 10⟩, ⟨1, 30⟩, ⟨2, 50⟩,
    ⟨3, 70⟩, ⟨4, 90⟩]
    = "0% \x7b translate: 0 0.1 \x7d\n25% \x7b translate: 0 0.3 \x7d\n50% \x7b translate: 0 0.5 \x7d\n75% \x7b translate: 0 0.7 \x7d\n100% \x7b translate: 0 0.9 \x7d" := by
  decide

/-! ### Claims about the exporters -/

theorem cssParts_eq (hImg step : ℕ) :
    ∀ (samples : List Point) (j : ℕ),
      cssParts hImg step samples (j * step)
        = (List.enumFrom j samples).map fun is =>
            toString (is.1 * step) ++ "% \x7b translate: 0 "
              ++ fmtHundredths (round2Num is.2.y hImg) ++ " \x7d" := by
  intro samples
  induction samples with
  | nil => intro j; rfl
  | cons s rest ih =>
    intro j
    have harith : j * step + step = (j + 1) * step := by ring
    simp only [cssParts, List.enumFrom_cons, List.map_cons, harith,
      ih (j + 1)]

/-- C3 (amended): with an image of height `H` and at least two samples, the
CSS renderer emits one line `"<percent>% { translate: 0 <round2(y/H)> }"`
per sample joined by newlines, where the `i`-th percent is
`i * floor(100 / (sampleCount - 1))` — starting at `0`, increasing by the
fixed integer step, the last percent not forced to `100`.  In the concrete
5-sample example the percent sequence is `0, 25, 50, 75, 100` and the
*second* line (not the middle one) is `"25% { translate: 0 0.3 }"`. -/
theorem samplesAsCssTranslateY_lines :
    (∀ (hImg : ℕ) (samples : List Point), 2 ≤ samples.length →
      samplesAsCssTranslateY (some hImg) samples
        = String.intercalate "\n" (samples.enum.map fun is =>
            toString (is.1 * (100 / (samples.length - 1)))
              ++ "% \x7b translate: 0 "
              ++ fmtHundredths (round2Num is.2.y hImg) ++ " \x7d")) ∧
    samplesAsCssTranslateY (some 100)
        [⟨0, 10⟩, ⟨1, 30⟩, ⟨2, 50⟩, ⟨3, 70⟩, ⟨4, 90⟩]
      = "0% \x7b translate: 0 0.1 \x7d\n25% \x7b translate: 0 0.3 \x7d\n50% \x7b translate: 0 0.5 \x7d\n75% \x7b translate: 0 0.7 \x7d\n100% \x7b translate: 0 0.9 \x7d" := by
  constructor
  · intro hImg samples _
    show String.intercalate "\n"
        (cssParts hImg (100 / (samples.length - 1)) samples 0) = _
    have hparts := cssParts_eq hImg (100 / (samples.length - 1)) samples 0
    rw [zero_mul] at hparts
    rw [List.enum_eq_enumFrom, hparts]
  · decide

/-- C3 (witness): the general line characterization applied to a concrete
two-sample state. -/
theorem samplesAsCssTranslateY_lines_witness :
    2 ≤ ([⟨0, 10⟩, ⟨1, 90⟩] : List Point).length ∧
    samplesAsCssTranslateY (some 100) [⟨0, 10⟩, ⟨1, 90⟩]
      = String.intercalate "\n"
          (([(⟨0, 10⟩ : Point), ⟨1, 90⟩].enum).map fun is =>
            toString (is.1
                * (100 / (([(⟨0, 10⟩ : Point), ⟨1, 90⟩]).length - 1)))
              ++ "% \x7b translate: 0 "
              ++ fmtHundredths (round2Num is.2.y 100) ++ " \x7d") :=
  ⟨by decide,
    samplesAsCssTranslateY_lines.1 100 [⟨0, 10⟩, ⟨1, 90⟩] (by decide)⟩

/-- C3 (counterexample): in the spec's 5-sample example the renderer's
`parts` array — whose newline join is the output — has
`"50% { translate: 0 0.5 }"` as its middle (third) entry;
`"25% { translate: 0 0.3 }"` is the second entry, not the middle one. -/
theorem cssParts_middle_line :
    samplesAsCssTranslateY (some 100)
        [⟨0, 10⟩, ⟨1, 30⟩, ⟨2, 50⟩, ⟨3, 70⟩, ⟨4, 90⟩]
      = String.intercalate "\n"
          (cssParts 100 25 [⟨0, 10⟩, ⟨1, 30⟩, ⟨2, 50⟩, ⟨3, 70⟩, ⟨4, 90⟩] 0) ∧
    (cssParts 100 25 [⟨0, 10⟩, ⟨1, 30⟩, ⟨2, 50⟩, ⟨3, 70⟩, ⟨4, 90⟩] 0).get? 2
      = some "50% \x7b translate: 0 0.5 \x7d" ∧
    (cssParts 100 25 [⟨0, 10⟩, ⟨1, 30⟩, ⟨2, 50⟩, ⟨3, 70⟩, ⟨4, 90⟩] 0).get? 2
      ≠ some "25% \x7b translate: 0 0.3 \x7d" ∧
    (cssParts 100 25 [⟨0, 10⟩, ⟨1, 30⟩, ⟨2, 50⟩, ⟨3, 70⟩, ⟨4, 90⟩] 0).get? 1
      = some "25% \x7b translate: 0 0.3 \x7d" := by
  refine ⟨by decide, by decide, by decide, by decide⟩

theorem round2Num_le_100 (y hImg : ℕ) (hh : 1 ≤ hImg) (hy : y ≤ hImg) :
    round2Num y hImg ≤ 100 := by
  show (2 * (y * 1 * 100) + 1 * hImg * 1) / (2 * (1 * hImg * 1)) ≤ 100
  have h2 : 0 < 2 * (1 * hImg * 1) := by omega
  exact Nat.lt_succ_iff.mp ((Nat.div_lt_iff_lt_mul h2).mpr (by omega))

/-- C4: with an image of height `H ≥ 1` and samples whose `y` values lie in
`[0, H]`, the JSON renderer serializes (with 2-space indent, via
`jsonStringifyFrames`) exactly one `Frame` per sample, each with the single
field `scale = "1 " ++ f` where `f` renders `m / 100` for some
`0 ≤ m ≤ 100` — i.e. a ratio in `[0, 1]` to two decimal places. -/
theorem samplesAsFrames_shape (hImg : ℕ) (samples : List Point)
    (hh : 1 ≤ hImg) (hy : ∀ p ∈ samples, p.y ≤ hImg) :
    (samplesAsFrames (some hImg) samples).length = samples.length ∧
    (∀ f ∈ samplesAsFrames (some hImg) samples,
      ∃ m, m ≤ 100 ∧ f.scale = "1 " ++ fmtHundredths m) ∧
    samplesAsJsScaleYFrames (some hImg) samples
      = jsonStringifyFrames (samplesAsFrames (some hImg) samples) := by
  refine ⟨List.length_map _ _, ?_, rfl⟩
  intro f hf
  obtain ⟨p, hp, rfl⟩ := List.mem_map.mp hf
  exact ⟨round2Num p.y hImg, round2Num_le_100 p.y hImg hh (hy p hp), rfl⟩

/-- C4 (witness): one sample `y = 30` at height `100` serializes to the
single frame `{"scale": "1 0.3"}`. -/
theorem samplesAsFrames_shape_witness :
    ((1 : ℕ) ≤ 100 ∧ ∀ p ∈ [(⟨0, 30⟩ : Point)], p.y ≤ 100) ∧
    ((samplesAsFrames (some 100) [⟨0, 30⟩]).length
        = [(⟨0, 30⟩ : Point)].length ∧
      (∀ f ∈ samplesAsFrames (some 100) [⟨0, 30⟩],
        ∃ m, m ≤ 100 ∧ f.scale = "1 " ++ fmtHundredths m) ∧
      samplesAsJsScaleYFrames (some 100) [⟨0, 30⟩]
        = jsonStringifyFrames (samplesAsFrames (some 100) [⟨0, 30⟩])) :=
  ⟨⟨by decide, by decide⟩,
    samplesAsFrames_shape 100 [⟨0, 30⟩] (by decide) (by decide)⟩

/-- C5: the whole-page JSON renderer returns `""` when no image is loaded,
and the empty JSON array text `"[]"` when an image is loaded but the sample
set is empty. -/
theorem samplesAsJsScaleYFrames_empty_cases :
    (∀ samples : List Point, samplesAsJsScaleYFrames none samples = "") ∧
    ∀ hImg : ℕ, samplesAsJsScaleYFrames (some hImg) [] = "[]" :=
  ⟨fun _ => rfl, fun _ => rfl⟩

/-- The instrumented row scan finds the same first hit as the plain one. -/
theorem scanRowsTr_snd (w h : ℕ) (data : List ℕ) (t xF : ℕ) :
    ∀ l : List ℕ,
      (scanRowsTr w h data t xF l).2 = l.find? (hitAt w h data t xF) := by
  intro l
  induction l with
  | nil => rfl
  | cons y ys ih =>
    by_cases hy : hitAt w h data t xF y = true
    · simp [scanRowsTr, hy, List.find?_cons_of_pos _ hy]
    · simp [scanRowsTr, hy, List.find?_cons_of_neg _ hy, ih]

/-- The instrumented loop pushes exactly the points of `sampleLoop`. -/
theorem sampleLoopTr_points (w h : ℕ) (data : List ℕ) (t : ℕ) (step : Frac) :
    ∀ (fuel : ℕ) (x : Frac),
      (sampleLoopTr w h data t step fuel x).filterMap (fun it => it.2.2)
        = sampleLoop w h data t step fuel x := by
  intro fuel
  induction fuel with
  | zero => intro x; rfl
  | succ fuel ih =>
    intro x
    rw [sampleLoopTr, sampleLoop]
    by_cases hc : Frac.lt x (Frac.ofNat (w + 1)) = true
    · rw [if_pos hc, if_pos hc]
      have hsnd := scanRowsTr_snd w h data t (xFloorClamp w x) (List.range h)
      cases hfind : (List.range h).find? (hitAt w h data t (xFloorClamp w x))
        with
      | none =>
        have h1 : colPoint w h data t (xFloorClamp w x) = none := by
          simp [colPoint, firstHitRow, hfind]
        simp [List.filterMap_cons, hsnd, hfind, h1, ih]
      | some r =>
        have h1 : colPoint w h data t (xFloorClamp w x)
            = some ⟨xFloorClamp w x, h - r⟩ := by
          simp [colPoint, firstHitRow, hfind]
        simp [List.filterMap_cons, hsnd, hfind, h1, ih]
    · rw [if_neg hc, if_neg hc]
      rfl

/-- A row scan performs only reads. -/
theorem scanRowsTr_reads (w h : ℕ) (data : List ℕ) (t xF : ℕ) :
    ∀ (l : List ℕ) (op : MemOp), op ∈ (scanRowsTr w h data t xF l).1 →
      ∃ i, op = MemOp.read i := by
  intro l
  induction l with
  | nil => intro op hop; simp [scanRowsTr] at hop
  | cons y ys ih =>
    intro op hop
    by_cases hy : hitAt w h data t xF y = true
    · simp [scanRowsTr, hy] at hop
      rcases hop with rfl | rfl | rfl | rfl <;> exact ⟨_, rfl⟩
    · simp [scanRowsTr, hy] at hop
      rcases hop with rfl | rfl | rfl | rfl | hop
      · exact ⟨_, rfl⟩
      · exact ⟨_, rfl⟩
      · exact ⟨_, rfl⟩
      · exact ⟨_, rfl⟩
      · exact ih op hop

/-- The whole instrumented sampler performs only reads. -/
theorem sampleLoopTr_reads (w h : ℕ) (data : List ℕ) (t : ℕ) (step : Frac) :
    ∀ (fuel : ℕ) (x : Frac) (it : ℕ × List MemOp × Option Point),
      it ∈ sampleLoopTr w h data t step fuel x →
      ∀ op ∈ it.2.1, ∃ i, op = MemOp.read i := by
  intro fuel
  induction fuel with
  | zero => intro x it hit; simp [sampleLoopTr] at hit
  | succ fuel ih =>
    intro x it hit
    rw [sampleLoopTr] at hit
    by_cases hc : Frac.lt x (Frac.ofNat (w + 1)) = true
    · rw [if_pos hc] at hit
      simp only [List.mem_cons] at hit
      rcases hit with rfl | hit
      · intro op hop
        exact scanRowsTr_reads w h data t _ _ op hop
      · exact ih (x.add step) it hit
    · rw [if_neg hc] at hit
      simp at hit

/-- Replaying a trace of reads leaves the buffer untouched. -/
theorem applyMemTrace_reads (data : List ℕ) :
    ∀ ops : List MemOp, (∀ op ∈ ops, ∃ i, op = MemOp.read i) →
      applyMemTrace data ops = data := by
  intro ops
  induction ops with
  | nil => intro _; rfl
  | cons op rest ih =>
    intro hops
    obtain ⟨i, rfl⟩ := hops op (List.mem_cons_self op rest)
    exact ih fun o ho => hops o (List.mem_cons_of_mem _ ho)

/-- C8: on the 4×4 buffer whose only black pixel is at column 2, row 1,
with threshold 127 and `sampleCount = 2`, the sampler inspects exactly the
columns `[0, 3]` (step `4`, last position clamped to `3`); every memory
operation it performs touches column 0 or column 3, never column 2, and the
two emitted points are the bottom-row fallbacks of columns 0 and 3 — the
black pixel is missed. -/
theorem sampler_only_inspects_sampled_columns :
    scannedColumns 4 4 buffer44 2 127 = [0, 3] ∧
    2 ∉ scannedColumns 4 4 buffer44 2 127 ∧
    (∀ op ∈ memTrace 4 4 buffer44 2 127,
      opColumn 4 op = 0 ∨ opColumn 4 op = 3) ∧
    updateSamples 4 4 buffer44 2 127 = [⟨0, 1⟩, ⟨3, 1⟩] := by
  refine ⟨by decide, by decide, by decide, by decide⟩

/-- C9: the sampler never mutates the pixel buffer it reads: replaying the
complete memory trace of a call — any call — on the RGBA array returns the
array unchanged, byte for byte (the trace contains only reads). -/
theorem updateSamples_no_buffer_mutation (w h : ℕ) (data : List ℕ)
    (n t : ℕ) :
    applyMemTrace data (memTrace w h data n t) = data := by
  apply applyMemTrace_reads
  intro op hop
  unfold memTrace at hop
  rw [List.mem_flatten] at hop
  obtain ⟨ops, hops, hopin⟩ := hop
  obtain ⟨it, hit, rfl⟩ := List.mem_map.mp hops
  exact sampleLoopTr_reads w h data t _ (sampleFuel w n) (Frac.ofNat 0) it
    hit op hopin
